import Mathlib

/-!
Shallow embedding of the `IntervalTree` repository (`tree.py`).

The ordered line is modelled as a linear order `α` extended with the two
infinite sentinels `float('inf')` / `float('-inf')` used by the source
(`EV α`).  Interval names are natural numbers, name sets are `Finset ℕ`
(Python `set`).  A Python `IntervalNode` always has either no children
(`boundary is None`) or both children (`__init__`, and every mutation site
assigns `boundary`, `left` and `right` together), so a node is embedded as
an inductive with a `leaf` and an `inner` constructor; both carry the
stored `min`, `max` and `_height` fields.  Exceptions (`RotationError`,
and the fuel needed to justify termination of `add`'s nested recursive
call on a freshly built node) are modelled with `Except`.
-/

namespace ITree

/-- Extended values: the ordered domain plus the sentinels
`float('-inf')` and `float('inf')` of the source. -/
inductive EV (α : Type) where
  | nInf : EV α
  | fin (a : α) : EV α
  | pInf : EV α
deriving DecidableEq, Repr

namespace EV

variable {α : Type} [LinearOrder α]

/-- Boolean `<=` on extended values, matching Python float comparison. -/
def ble : EV α → EV α → Bool
  | nInf, _ => true
  | _, pInf => true
  | fin a, fin b => decide (a ≤ b)
  | _, _ => false

/-- Boolean `<` on extended values (`a < b` iff not `b <= a`). -/
def blt (a b : EV α) : Bool := !(ble b a)

end EV

/-- Error outcomes of the node-level operations: `rot` is the source's
`RotationError`, `attrNone` an attribute access on a `None` child (never
happens for the embedded total accessors but kept for rotations called on
a leaf), `fuel` is exhaustion of the termination budget given to `add`
(shown unreachable below). -/
inductive TErr where
  | rot : TErr
  | attrNone : TErr
  | fuel : TErr
deriving DecidableEq, Repr

/-- Embedding of `IntervalNode`: either a leaf (no `boundary`, no
children) or an inner node with a split point and two children.  Field
order follows the source: `boundary`, `intervals`, `left`, `right`,
`min`, `max`, `_height`. -/
inductive Node (α : Type) where
  | leaf (ivs : Finset ℕ) (mn mx : EV α) (hgt : ℤ) : Node α
  | inner (boundary : EV α) (ivs : Finset ℕ) (left right : Node α)
      (mn mx : EV α) (hgt : ℤ) : Node α
deriving DecidableEq

namespace Node

variable {α : Type} [LinearOrder α]

/-- `self._isleaf` (`boundary == None`). -/
def isleaf : Node α → Bool
  | leaf .. => true
  | inner .. => false

/-- The stored `self.intervals` set. -/
def ivs : Node α → Finset ℕ
  | leaf i _ _ _ => i
  | inner _ i _ _ _ _ _ => i

/-- The stored `self.min`. -/
def mn : Node α → EV α
  | leaf _ m _ _ => m
  | inner _ _ _ _ m _ _ => m

/-- The stored `self.max`. -/
def mx : Node α → EV α
  | leaf _ _ m _ => m
  | inner _ _ _ _ _ m _ => m

/-- The stored `self._height`. -/
def hgt : Node α → ℤ
  | leaf _ _ _ h => h
  | inner _ _ _ _ _ _ h => h

/-- Replace the stored `intervals` set. -/
def setIvs : Node α → Finset ℕ → Node α
  | leaf _ mn mx h, s => leaf s mn mx h
  | inner b _ l r mn mx h, s => inner b s l r mn mx h

/-- Replace the stored `_height`. -/
def setHgt : Node α → ℤ → Node α
  | leaf i mn mx _, h => leaf i mn mx h
  | inner b i l r mn mx _, h => inner b i l r mn mx h

/-- Number of nodes, used as a termination measure. -/
def size : Node α → Nat
  | leaf .. => 1
  | inner _ _ l r _ _ _ => 1 + l.size + r.size

/-- `IntervalNode._updateheight`: 0 on a leaf; on an inner node
`1 + max` of the children's stored heights, a leaf child counting `-1`. -/
def updateheight : Node α → ℤ
  | leaf .. => 0
  | inner _ _ l r _ _ _ =>
      1 + max (if l.isleaf then -1 else l.hgt) (if r.isleaf then -1 else r.hgt)

/-- `IntervalNode._balance`: difference of the children's stored heights
(`0` for a missing child, hence `0` on a leaf). -/
def balanceOf : Node α → ℤ
  | leaf .. => 0
  | inner _ _ l r _ _ _ => r.hgt - l.hgt

/-- `IntervalNode._rotateright`.  Snapshot and clear the interval sets of
the node and its left child, perform the pointer rotation, repair the
spans (`newroot` takes `[min, max]`, the demoted node's `min` becomes the
promoted boundary), redistribute the snapshotted sets, re-merge names now
present in both children of the demoted node, and recompute the two
stored heights bottom-up. -/
def rotateright : Node α → Except TErr (Node α)
  | leaf .. => .error .attrNone
  | inner b i l r mn mx h =>
    match l with
    | leaf .. => .error .rot
    | inner lb livs ll lr _ _ lh =>
      let oldrootivs := i
      let newrootivs := livs
      -- self.left = newroot.right; newroot.left keeps its node, both get |= newrootintervals
      let newleft := ll.setIvs (ll.ivs ∪ newrootivs)
      let selfleft := lr.setIvs (lr.ivs ∪ newrootivs)
      -- both = self.left.intervals & self.right.intervals
      let both := selfleft.ivs ∩ r.ivs
      let selfleft2 := selfleft.setIvs (selfleft.ivs \ both)
      let selfright := r.setIvs (r.ivs \ both)
      -- demoted node: min becomes newroot.boundary, intervals were cleared then |= both
      let demoted := inner b both selfleft2 selfright lb mx h
      let demoted2 := demoted.setHgt demoted.updateheight
      let newroot := inner lb oldrootivs newleft demoted2 mn mx lh
      .ok (newroot.setHgt newroot.updateheight)

/-- `IntervalNode._rotateleft`, the mirror image of `rotateright`. -/
def rotateleft : Node α → Except TErr (Node α)
  | leaf .. => .error .attrNone
  | inner b i l r mn mx h =>
    match r with
    | leaf .. => .error .rot
    | inner rb rivs rl rr _ _ rh =>
      let oldrootivs := i
      let newrootivs := rivs
      -- self.right = newroot.left; newroot.right keeps its node, both get |= newrootintervals
      let newright := rr.setIvs (rr.ivs ∪ newrootivs)
      let selfright := rl.setIvs (rl.ivs ∪ newrootivs)
      -- both = self.left.intervals & self.right.intervals
      let both := l.ivs ∩ selfright.ivs
      let selfleft := l.setIvs (l.ivs \ both)
      let selfright2 := selfright.setIvs (selfright.ivs \ both)
      -- demoted node: max becomes newroot.boundary
      let demoted := inner b both selfleft selfright2 mn rb h
      let demoted2 := demoted.setHgt demoted.updateheight
      let newroot := inner rb oldrootivs demoted2 newright mn mx rh
      .ok (newroot.setHgt newroot.updateheight)

/-- `IntervalNode.rebalance` (AVL dispatch).  The double-rotation guard
reads `self.left._balance`; a leaf child has balance `0`, so the guard is
false and the grandchild is never accessed there (Python's short-circuit
`and`), which the `match` below reproduces. -/
def rebalance (n : Node α) : Except TErr (Node α) :=
  match n with
  | leaf .. => .ok n
  | inner b i l r mn mx h =>
    let bal := r.hgt - l.hgt
    if bal < -1 then do
      let pre ←
        match l with
        | leaf .. => pure (inner b i l r mn mx h)
        | inner _ _ _ lr2 _ _ _ =>
          if l.balanceOf > 0 && !lr2.isleaf then do
            let l2 ← l.rotateleft
            pure (inner b i l2 r mn mx h)
          else
            pure (inner b i l r mn mx h)
      let newroot ← pre.rotateright
      pure (newroot.setHgt newroot.updateheight)
    else if bal > 1 then do
      let pre ←
        match r with
        | leaf .. => pure (inner b i l r mn mx h)
        | inner _ _ rl2 _ _ _ _ =>
          if r.balanceOf < 0 && !rl2.isleaf then do
            let r2 ← r.rotateright
            pure (inner b i l r2 mn mx h)
          else
            pure (inner b i l r mn mx h)
      let newroot ← pre.rotateleft
      pure (newroot.setHgt newroot.updateheight)
    else
      .ok n

/-- The `if not self._isleaf: self.left._height = ...; self.right._height = ...`
step at the end of `IntervalNode.add`. -/
def updateChildHeights : Node α → Node α
  | leaf i mn mx h => leaf i mn mx h
  | inner b i l r mn mx h =>
      inner b i (l.setHgt l.updateheight) (r.setHgt r.updateheight) mn mx h

/-- The common tail of `IntervalNode.add`: recompute the children's
stored heights when not a leaf, recompute the node's own stored height,
then `rebalance`. -/
def settle (n : Node α) : Except TErr (Node α) :=
  let n2 := n.updateChildHeights
  (n2.setHgt n2.updateheight).rebalance

/-- `IntervalNode.add`, with an explicit fuel parameter justifying the
one recursive call that is not on a subterm: on a leaf split with
`start > min` and `end < max` the source builds
`IntervalNode(end, min=boundary, max=self.max)` and calls `add` on it.
Fuel is consumed on every call; `size n + 6` fuel is proved sufficient
below, and the facade passes that much, so the `.fuel` error is never
observable.  With enough fuel this computes exactly what the source
computes. -/
def addF : Nat → Node α → EV α → EV α → ℕ → Except TErr (Node α)
  | 0, _, _, _, _ => throw .fuel
  | fuel + 1, n, s, e, i => do
    let n1 ←
      -- if start <= self.min and end >= self.max
      if s.ble n.mn && n.mx.ble e then
        pure (n.setIvs (insert i n.ivs))
      else
        match n with
        | leaf lvs lmn lmx lht =>
          if lmn.blt s then
            -- boundary = start; fresh left leaf [min, boundary]
            let newl : Node α := leaf ∅ lmn s 0
            if e.blt lmx then
              -- self.right = IntervalNode(end, min=boundary, max=self.max)
              let fresh : Node α :=
                inner e ∅ (leaf ∅ s e 0) (leaf ∅ e lmx 0) s lmx 0
              do
                let newr ← addF fuel fresh s e i
                pure (inner s lvs newl newr lmn lmx lht)
            else
              pure (inner s lvs newl (leaf {i} s lmx 0) lmn lmx lht)
          else if e.blt lmx then
            -- boundary = end
            pure (inner e lvs (leaf {i} lmn e 0) (leaf ∅ e lmx 0) lmn lmx lht)
          else
            pure (leaf lvs lmn lmx lht)
        | inner b ivs l r mn mx h => do
          let l2 ← if s.blt b || e.ble b then addF fuel l s e i else pure l
          let r2 ← if b.ble s || b.blt e then addF fuel r s e i else pure r
          pure (inner b ivs l2 r2 mn mx h)
    settle n1

/-- `IntervalNode.testPoint`: union the covering set when
`min <= point <= max`, recurse left when `point <= boundary` and right
when `point >= boundary`. -/
def testPoint : Node α → EV α → Finset ℕ
  | leaf i mn mx _, p => if mn.ble p && p.ble mx then i else ∅
  | inner b i l r mn mx _, p =>
      (if mn.ble p && p.ble mx then i else ∅) ∪
        (if p.ble b then l.testPoint p else ∅) ∪
        (if b.ble p then r.testPoint p else ∅)

/-- `IntervalNode.testRange`: union the covering set when
`max >= start and min <= end`, recurse left when `start <= boundary` and
right when `boundary <= end`. -/
def testRange : Node α → EV α → EV α → Finset ℕ
  | leaf i mn mx _, s, e => if s.ble mx && mn.ble e then i else ∅
  | inner b i l r mn mx _, s, e =>
      (if s.ble mx && mn.ble e then i else ∅) ∪
        (if s.ble b then l.testRange s e else ∅) ∪
        (if b.ble e then r.testRange s e else ∅)

/-- `IntervalNode._emptychildren`: both children's full-range query is
empty (trivially true on a leaf, where both lengths default to 0; the
source tests `self.left is not None` for both lengths, which is
equivalent since the children are both present or both absent). -/
def emptychildren : Node α → Bool
  | leaf .. => true
  | inner _ _ l r _ _ _ =>
      (l.testRange .nInf .pInf).card == 0 && (r.testRange .nInf .pInf).card == 0

/-- `IntervalNode._canreplacewithleft`: the node's own set is empty, the
left child is internal, the right child is a leaf whose set equals the
left child's right grandchild's set. -/
def canreplacewithleft : Node α → Bool
  | leaf .. => false
  | inner _ i l r _ _ _ =>
      i.card == 0 &&
        (match l with
         | leaf .. => false
         | inner _ _ _ lr _ _ _ => r.isleaf && decide (r.ivs = lr.ivs))

/-- `IntervalNode._canreplacewithright`, the mirror image. -/
def canreplacewithright : Node α → Bool
  | leaf .. => false
  | inner _ i l r _ _ _ =>
      i.card == 0 &&
        (match r with
         | leaf .. => false
         | inner _ _ rl _ _ _ _ => l.isleaf && decide (rl.ivs = l.ivs))

/-- The compaction step of `IntervalNode.remove` (the three "removing
unnecessary nodes" rules, applied in source order): collapse when both
children are empty (`self.__init__(intervals=self.intervals, ...)`), else
replace the node's identity with its left (or right) child's, re-linking
that child's children.  `__init__` resets `_height` to 0 in all three
rules. -/
def compact (n : Node α) : Node α :=
  if n.emptychildren then
    leaf n.ivs n.mn n.mx 0
  else if n.canreplacewithleft then
    match n with
    | inner _ _ (inner lb livs ll lr _ _ _) _ mn mx _ =>
        inner lb livs ll lr mn mx 0
    | _ => n  -- unreachable: canreplacewithleft forces this shape
  else if n.canreplacewithright then
    match n with
    | inner _ _ _ (inner rb rivs rl rr _ _ _) mn mx _ =>
        inner rb rivs rl rr mn mx 0
    | _ => n  -- unreachable
  else n

/-- `IntervalNode.remove`.  Find-and-delete or guarded recursion, then the
compaction rules, then `rebalance`.  The height-update lines of the
source write to a fresh `height` attribute, not to `_height`; they have no
observable effect and are therefore not modelled (the stored `_height`
fields are left untouched, exactly as the source leaves them). -/
def remove (n : Node α) (i : ℕ) (s e : EV α) : Except TErr (Node α) := do
  let n1 ←
    if i ∈ n.ivs then
      pure (n.setIvs (n.ivs.erase i))
    else
      match n with
      | leaf .. => pure n
      | inner b ivs l r mn mx h => do
        let l2 ← if s.ble b then l.remove i s e else pure l  -- boundary >= start
        let r2 ← if b.ble e then r.remove i s e else pure r  -- boundary <= end
        pure (inner b ivs l2 r2 mn mx h)
  (compact n1).rebalance

end Node

/-- Facade-level errors: the two `ValueError`s and the `KeyError` of
`IntervalTree`, plus propagated node-level exceptions. -/
inductive FErr where
  | invalidInterval : FErr
  | duplicateName : FErr
  | notFound : FErr
  | node (e : TErr) : FErr
deriving DecidableEq, Repr

/-- Embedding of the `IntervalTree` facade: the root node and the
name-to-bounds registry `self._dict` (an association list with at most
one binding per name). -/
structure Tree (α : Type) where
  root : Node α
  dict : List (ℕ × EV α × EV α)
deriving DecidableEq

namespace Tree

variable {α : Type} [LinearOrder α]

/-- `IntervalTree.__init__`: a full-line leaf and an empty registry. -/
def init : Tree α := ⟨Node.leaf ∅ .nInf .pInf 0, []⟩

/-- Registry lookup (`self._dict[name]` / `name in self._dict`). -/
def lookupD (d : List (ℕ × EV α × EV α)) (i : ℕ) : Option (EV α × EV α) :=
  match d with
  | [] => none
  | (j, se) :: rest => if j = i then some se else lookupD rest i

/-- Registry deletion (`del self._dict[name]`). -/
def eraseD (d : List (ℕ × EV α × EV α)) (i : ℕ) : List (ℕ × EV α × EV α) :=
  d.filter (fun x => x.1 ≠ i)

/-- `IntervalTree.add`: validate the interval, reject duplicate names,
then grow the root (`Node.addF` with fuel that is proved sufficient, so
the fuel device is unobservable) and record the bounds. -/
def add (t : Tree α) (s e : EV α) (i : ℕ) : Except FErr (Tree α) :=
  if !(s.blt e) then .error .invalidInterval
  else if (lookupD t.dict i).isSome then .error .duplicateName
  else
    match t.root.addF (t.root.size + 6) s e i with
    | .ok r => .ok ⟨r, (i, s, e) :: t.dict⟩
    | .error te => .error (.node te)

/-- `IntervalTree.remove`: look the name up, delete it from the tree,
then drop the registry entry. -/
def remove (t : Tree α) (i : ℕ) : Except FErr (Tree α) :=
  match lookupD t.dict i with
  | none => .error .notFound
  | some (s, e) =>
    match t.root.remove i s e with
    | .ok r => .ok ⟨r, eraseD t.dict i⟩
    | .error te => .error (.node te)

/-- `IntervalTree.testPoint` (no validation). -/
def testPoint (t : Tree α) (p : EV α) : Finset ℕ := t.root.testPoint p

/-- `IntervalTree.testRange`: validate `start < end` first. -/
def testRange (t : Tree α) (s e : EV α) : Except FErr (Finset ℕ) :=
  if !(s.blt e) then .error .invalidInterval
  else .ok (t.root.testRange s e)

/-- `IntervalTree.getEndpoints`. -/
def getEndpoints (t : Tree α) (i : ℕ) : Except FErr (EV α × EV α) :=
  match lookupD t.dict i with
  | none => .error .notFound
  | some se => .ok se

/-- `IntervalTree.clear`: the root is replaced by a fresh leaf; the
registry `self._dict` is left untouched by the source. -/
def clear (t : Tree α) : Tree α := { t with root := Node.leaf ∅ .nInf .pInf 0 }

end Tree

/-- A public mutating call. -/
inductive Op (α : Type) where
  | add (s e : EV α) (i : ℕ) : Op α
  | remove (i : ℕ) : Op α
  | clear : Op α
deriving DecidableEq, Repr

/-- Run a sequence of mutating calls, stopping at the first error. -/
def runOps {α : Type} [LinearOrder α] (t : Tree α) : List (Op α) → Except FErr (Tree α)
  | [] => .ok t
  | op :: rest => do
    let t1 ←
      match op with
      | .add s e i => t.add s e i
      | .remove i => t.remove i
      | .clear => pure t.clear
    runOps t1 rest

/-- The states reachable by successful public calls from a fresh tree. -/
inductive Reachable {α : Type} [LinearOrder α] : Tree α → Prop where
  | init : Reachable Tree.init
  | addStep {t t' : Tree α} {s e : EV α} {i : ℕ} :
      Reachable t → t.add s e i = .ok t' → Reachable t'
  | removeStep {t t' : Tree α} {i : ℕ} :
      Reachable t → t.remove i = .ok t' → Reachable t'
  | clearStep {t : Tree α} : Reachable t → Reachable t.clear

section SpecSide

variable {α : Type} [LinearOrder α]

/-- Modelled from the spec's words (refinement side of C1): the names in
the registry whose recorded bounds satisfy `start <= p <= end`. -/
def specTestPoint (d : List (ℕ × EV α × EV α)) (p : EV α) : Finset ℕ :=
  (d.filter (fun x => x.2.1.ble p && p.ble x.2.2)).foldr (fun x s => insert x.1 s) ∅

/-- Modelled from the spec's words (refinement side of C2): the names in
the registry whose recorded bounds satisfy `start <= e` and `end >= s`. -/
def specTestRange (d : List (ℕ × EV α × EV α)) (s e : EV α) : Finset ℕ :=
  (d.filter (fun x => x.2.1.ble e && s.ble x.2.2)).foldr (fun x s => insert x.1 s) ∅

/-- The height notion of claim C3: 0 for a leaf; for an internal node,
`1 + max` over the children of the child's height, a leaf child
contributing `-1`.  Computed from the structure, not from the stored
`_height` fields. -/
def Node.realHeight : Node α → ℤ
  | .leaf .. => 0
  | .inner _ _ l r _ _ _ =>
      1 + max (if l.isleaf then -1 else l.realHeight)
          (if r.isleaf then -1 else r.realHeight)

/-- The AVL property of claim C3, with the height notion above. -/
def Node.balancedB : Node α → Bool
  | .leaf .. => true
  | .inner _ _ l r _ _ _ =>
      decide ((r.realHeight - l.realHeight).natAbs ≤ 1) && l.balancedB && r.balancedB

/-- The span consistency part of claim C10: every internal node's children
satisfy `left.min = min`, `left.max = boundary = right.min`,
`right.max = max` (the boundary-iff-children part is enforced by the
`Node` constructors, mirroring how every mutation site of the source
assigns `boundary`, `left` and `right` together). -/
def Node.spanOK : Node α → Bool
  | .leaf .. => true
  | .inner b _ l r mn mx _ =>
      decide (l.mn = mn) && decide (l.mx = b) && decide (r.mn = b) &&
        decide (r.mx = mx) && l.spanOK && r.spanOK

/-- Stored-height sanity: every leaf stores `_height = 0` and every stored
height is nonnegative.  This is the invariant that keeps `rebalance` from
ever attempting to promote a leaf (C9). -/
def Node.hok : Node α → Bool
  | .leaf _ _ _ h => h == 0
  | .inner _ _ l r _ _ h => decide (0 ≤ h) && l.hok && r.hok

/-- The four-call sequence `add(0,4,n0); add(0,2,n1); add(0,2,n2);
remove(n1)`.  During the removal the node spanning `[0,4]` satisfies
`_canreplacewithleft` (its own set is empty, its left child is internal,
its right child is the empty leaf `[4,+inf]` whose set equals the left
child's right grandchild's set), so it is replaced by its left child —
but the re-linked grandchildren keep their old `min`/`max`, and the left
child's covering set (holding `n0`) is promoted to a node spanning
`[0,+inf]` although `n0 = (0,4)`. -/
def bugOps : List (Op ℤ) :=
  [.add (.fin 0) (.fin 4) 0, .add (.fin 0) (.fin 2) 1,
   .add (.fin 0) (.fin 2) 2, .remove 1]

/-- Six valid calls after which the tree violates the AVL balance
property: `remove` writes its height updates to a fresh `height`
attribute instead of `_height`, so `rebalance` decides with stale heights
and misses a needed rotation. -/
def unbalOps : List (Op ℤ) :=
  [.add (.fin 4) (.fin 9) 0, .add (.fin 4) (.fin 7) 1, .add (.fin 4) (.fin 6) 2,
   .add (.fin 3) (.fin 8) 3, .add (.fin 0) (.fin 5) 4, .remove 3]

/-- The reachable state `T` of the C4 counterexample: two intervals
`0 = (0,4)` and `2 = (0,2)`. -/
def c4base : List (Op ℤ) :=
  [.add (.fin 0) (.fin 4) 0, .add (.fin 0) (.fin 2) 2]

/-- An internal node holding `{0}` itself, with two empty leaf children;
this is exactly the shape reached inside `bugOps` (covering set `{'a'}`,
children drained).  Both children's full-range query is empty. -/
def c5node : Node ℤ :=
  .inner (.fin 2) {0} (.leaf ∅ (.fin 0) (.fin 2) 0)
    (.leaf ∅ (.fin 2) (.fin 4) 0) (.fin 0) (.fin 4) 0

end SpecSide

/-! ## Theorems -/

section BasicLemmas

variable {α : Type} [LinearOrder α]

@[simp] theorem EV.ble_refl (a : EV α) : EV.ble a a = true := by
  cases a <;> simp [EV.ble]

@[simp] theorem EV.ble_nInf (a : EV α) : EV.ble .nInf a = true := by
  cases a <;> rfl

@[simp] theorem EV.ble_pInf (a : EV α) : EV.ble a .pInf = true := by
  cases a <;> rfl

@[simp] theorem Node.ivs_leaf (i : Finset ℕ) (mn0 mx0 : EV α) (h0 : ℤ) :
    (Node.leaf i mn0 mx0 h0).ivs = i := rfl

@[simp] theorem Node.ivs_inner (b : EV α) (i : Finset ℕ) (l r : Node α)
    (mn0 mx0 : EV α) (h0 : ℤ) :
    (Node.inner b i l r mn0 mx0 h0).ivs = i := rfl

@[simp] theorem Node.mn_leaf (i : Finset ℕ) (mn0 mx0 : EV α) (h0 : ℤ) :
    (Node.leaf i mn0 mx0 h0).mn = mn0 := rfl

@[simp] theorem Node.mn_inner (b : EV α) (i : Finset ℕ) (l r : Node α)
    (mn0 mx0 : EV α) (h0 : ℤ) :
    (Node.inner b i l r mn0 mx0 h0).mn = mn0 := rfl

@[simp] theorem Node.mx_leaf (i : Finset ℕ) (mn0 mx0 : EV α) (h0 : ℤ) :
    (Node.leaf i mn0 mx0 h0).mx = mx0 := rfl

@[simp] theorem Node.mx_inner (b : EV α) (i : Finset ℕ) (l r : Node α)
    (mn0 mx0 : EV α) (h0 : ℤ) :
    (Node.inner b i l r mn0 mx0 h0).mx = mx0 := rfl

@[simp] theorem Node.hgt_leaf (i : Finset ℕ) (mn0 mx0 : EV α) (h0 : ℤ) :
    (Node.leaf i mn0 mx0 h0).hgt = h0 := rfl

@[simp] theorem Node.hgt_inner (b : EV α) (i : Finset ℕ) (l r : Node α)
    (mn0 mx0 : EV α) (h0 : ℤ) :
    (Node.inner b i l r mn0 mx0 h0).hgt = h0 := rfl

@[simp] theorem Node.isleaf_leaf (i : Finset ℕ) (mn0 mx0 : EV α) (h0 : ℤ) :
    (Node.leaf i mn0 mx0 h0).isleaf = true := rfl

@[simp] theorem Node.isleaf_inner (b : EV α) (i : Finset ℕ) (l r : Node α)
    (mn0 mx0 : EV α) (h0 : ℤ) :
    (Node.inner b i l r mn0 mx0 h0).isleaf = false := rfl

/-- Bind on a successful `Except` computation. -/
@[simp] theorem ok_bind {ε β γ : Type} (a : β) (f : β → Except ε γ) :
    (Except.ok a : Except ε β) >>= f = f a := rfl

/-- Bind on a failed `Except` computation. -/
@[simp] theorem error_bind {ε β γ : Type} (e : ε) (f : β → Except ε γ) :
    (Except.error e : Except ε β) >>= f = .error e := rfl

/-- A leaf is never rebalanced. -/
theorem Node.rebalance_leaf (i : Finset ℕ) (mn0 mx0 : EV α) (h0 : ℤ) :
    (Node.leaf i mn0 mx0 h0 : Node α).rebalance = .ok (.leaf i mn0 mx0 h0) := rfl

/-- A node whose children are empty (or absent) is collapsed by the
compaction step to a leaf retaining its own covering set. -/
theorem Node.compact_of_empty {n : Node α} (h : n.emptychildren = true) :
    n.compact = .leaf n.ivs n.mn n.mx 0 := by
  simp [Node.compact, h]

/-- The full-range query of a leaf is its own covering set. -/
theorem Node.testRange_full_leaf (i : Finset ℕ) (mn0 mx0 : EV α) (h0 : ℤ) :
    (Node.leaf i mn0 mx0 h0).testRange .nInf .pInf = i := by
  simp [Node.testRange]

/-- The full-range query of an inner node unions everything beneath. -/
theorem Node.testRange_full_inner (b : EV α) (i : Finset ℕ) (l r : Node α)
    (mn0 mx0 : EV α) (h0 : ℤ) :
    (Node.inner b i l r mn0 mx0 h0).testRange .nInf .pInf =
      i ∪ l.testRange .nInf .pInf ∪ r.testRange .nInf .pInf := by
  simp [Node.testRange]

end BasicLemmas

/-! ### Concrete failing runs -/

section FailingRuns

/-- C1: after the valid call sequence `bugOps`, `testPoint(5)` returns
`{0}` although the live intervals are `0 = (0,4)` and `2 = (0,2)`, neither
of which satisfies `start <= 5 <= end`; the spec-side set is empty.  The
claimed point correctness therefore fails on the code. -/
theorem C1_testPoint_mismatch :
    (runOps Tree.init bugOps).toOption.map
        (fun t => (t.testPoint (.fin 5), specTestPoint t.dict (.fin 5))) =
      some ({0}, ∅) ∧ ({0} : Finset ℕ) ≠ (∅ : Finset ℕ) := by decide

/-- C2: after the same valid call sequence, `testRange(5,6)` returns `{0}`
although no live interval has `start <= 6` and `end >= 5`; the spec-side
set is empty.  The claimed range correctness therefore fails on the code. -/
theorem C2_testRange_mismatch :
    (runOps Tree.init bugOps).toOption.map
        (fun t => ((t.testRange (.fin 5) (.fin 6)).toOption,
                   specTestRange t.dict (.fin 5) (.fin 6))) =
      some (some {0}, ∅) ∧ ({0} : Finset ℕ) ≠ (∅ : Finset ℕ) := by decide

/-- C3: after the valid call sequence `unbalOps` the tree contains a node
whose children's heights (computed from the structure, with the claim's
height convention) differ by more than 1. -/
theorem C3_unbalanced :
    (runOps Tree.init unbalOps).toOption.map (fun t => t.root.balancedB) =
      some false := by decide

/-- C4: from the reachable state after `c4base`, adding the fresh interval
`1 = (0,2)` and then removing it changes `testPoint(5)` from `∅` to `{0}`:
the add/remove round trip is not query-equivalent. -/
theorem C4_roundtrip_fail :
    ((runOps Tree.init c4base).toOption.bind (fun t =>
        (runOps t [.add (.fin 0) (.fin 2) 1, .remove 1]).toOption.map
          (fun t2 => (t.testPoint (.fin 5), t2.testPoint (.fin 5))))) =
      some (∅, {0}) ∧ (∅ : Finset ℕ) ≠ ({0} : Finset ℕ) := by decide

/-- C5 counterexample: `remove` on a node whose children both answer the
full-range query with `∅` collapses it to a leaf that KEEPS the node's own
covering set — here the non-empty `{0}` — not to an empty leaf as claimed. -/
theorem C5_collapse_not_empty :
    c5node.emptychildren = true ∧
    (c5node.remove 7 (.fin 0) (.fin 2)).toOption =
      some (.leaf {0} (.fin 0) (.fin 4) 0) ∧
    ({0} : Finset ℕ) ≠ (∅ : Finset ℕ) := by decide

/-- C6: `clear` replaces the root but leaves the registry `_dict`
untouched: after `add(0,1,n0)` then `clear()`, queries are empty, but
`add(0,1,n0)` is rejected as a duplicate and `getEndpoints(n0)` still
answers `(0,1)` instead of failing. -/
theorem C6_clear_keeps_registry :
    (runOps Tree.init [Op.add (.fin 0) (.fin 1) 0]).toOption.map (fun t =>
        match t.clear.add (.fin 0) (.fin 1) 0 with
        | .error .duplicateName => true
        | _ => false) = some true ∧
    (runOps Tree.init [Op.add (.fin 0) (.fin 1) 0]).toOption.map (fun t =>
        (t.clear.getEndpoints 0).toOption) = some (some (.fin 0, .fin 1)) ∧
    (runOps Tree.init [Op.add (.fin 0) (.fin 1) 0]).toOption.map (fun t =>
        t.clear.testPoint (.fin 0)) = some ∅ ∧
    (runOps Tree.init [Op.add (.fin 0) (.fin 1) 0]).toOption.map (fun t =>
        (t.clear.testRange .nInf .pInf).toOption) = some (some ∅) := by decide

/-- C10: after the valid call sequence `bugOps` the span consistency
invariant fails: the compaction step of `remove` re-links grandchildren
without repairing their `min`/`max` fields. -/
theorem C10_span_violation :
    (runOps Tree.init bugOps).toOption.map (fun t => t.root.spanOK) =
      some false := by decide

end FailingRuns

/-! ### Facade validation (C7, C8) -/

section Facade

variable {α : Type} [LinearOrder α]

omit [LinearOrder α] in
theorem lookupD_eraseD (d : List (ℕ × EV α × EV α)) (i : ℕ) :
    Tree.lookupD (Tree.eraseD d i) i = none := by
  induction d with
  | nil => rfl
  | cons x rest ih =>
    by_cases hx : x.1 = i
    · simpa [Tree.eraseD, List.filter, hx] using ih
    · simpa [Tree.eraseD, List.filter, hx, Tree.lookupD] using ih

/-- C7: on every tree state, `add` fails with the invalid-interval error
whenever `start < end` does not hold, and (when the interval is valid)
fails with the duplicate-name error whenever the name is already
registered.  In both cases the validation happens before any use of the
root or registry, so no state is produced (no mutation). -/
theorem C7_add_validation (t : Tree α) (s e : EV α) (i : ℕ) :
    (EV.blt s e = false → t.add s e i = .error .invalidInterval) ∧
    (EV.blt s e = true → (Tree.lookupD t.dict i).isSome = true →
      t.add s e i = .error .duplicateName) := by
  constructor
  · intro h
    simp [Tree.add, h]
  · intro h1 h2
    simp [Tree.add, h1, h2]

theorem C7_add_validation_witness :
    (Tree.init (α := ℤ)).add (.fin 1) (.fin 0) 0 = .error .invalidInterval :=
  (C7_add_validation Tree.init (.fin 1) (.fin 0) 0).1 (by decide)

/-- C8: registry consistency.  After a successful `add(s,e,i)`,
`getEndpoints i` returns exactly `(s,e)`; after a successful `remove i`,
`getEndpoints i` fails with the not-found error; and `remove i` and
`getEndpoints i` fail with the not-found error exactly when `i` is not
registered (in which case the validation precedes any mutation). -/
theorem C8_registry_consistency (t t2 : Tree α) (s e : EV α) (i : ℕ) :
    (t.add s e i = .ok t2 → t2.getEndpoints i = .ok (s, e)) ∧
    (t.remove i = .ok t2 → t2.getEndpoints i = .error .notFound) ∧
    (t.remove i = .error .notFound ↔ Tree.lookupD t.dict i = none) ∧
    (t.getEndpoints i = .error .notFound ↔ Tree.lookupD t.dict i = none) := by
  refine ⟨?_, ?_, ?_, ?_⟩
  · intro h
    unfold Tree.add at h
    by_cases h1 : EV.blt s e
    · by_cases h2 : (Tree.lookupD t.dict i).isSome
      · simp [h1, h2] at h
      · cases hadd : Node.addF (t.root.size + 6) t.root s e i with
        | ok r =>
          simp [h1, h2, hadd] at h
          subst h
          simp [Tree.getEndpoints, Tree.lookupD]
        | error te => simp [h1, h2, hadd] at h
    · simp [h1] at h
  · intro h
    unfold Tree.remove at h
    cases hl : Tree.lookupD t.dict i with
    | none => simp [hl] at h
    | some se =>
      cases hrem : t.root.remove i se.1 se.2 with
      | ok r =>
        simp [hl, hrem] at h
        subst h
        simp [Tree.getEndpoints, lookupD_eraseD]
      | error te => simp [hl, hrem] at h
  · unfold Tree.remove
    cases hl : Tree.lookupD t.dict i with
    | none => simp
    | some se =>
      cases hrem : t.root.remove i se.1 se.2 with
      | ok r => simp [hrem]
      | error te => simp [hrem]
  · unfold Tree.getEndpoints
    cases hl : Tree.lookupD t.dict i with
    | none => simp
    | some se => simp

theorem C8_registry_consistency_witness :
    (Tree.init (α := ℤ)).getEndpoints 0 = .error .notFound :=
  ((C8_registry_consistency (α := ℤ) Tree.init Tree.init (.fin 0) (.fin 1) 0).2.2.2).mpr
    (by decide)

end Facade

/-! ### The collapse rule of `remove` (C5) -/

section Collapse

variable {α : Type} [LinearOrder α]

/-- Removing anything from a subtree whose full-range query is empty
collapses it to an empty leaf over its span (every visited node
satisfies `_emptychildren`). -/
theorem remove_of_empty (n : Node α) (i : ℕ) (s e : EV α)
    (h : n.testRange .nInf .pInf = ∅) :
    n.remove i s e = .ok (.leaf ∅ n.mn n.mx 0) := by
  induction n with
  | leaf ivs0 mn0 mx0 h0 =>
    rw [Node.testRange_full_leaf] at h
    subst h
    rw [Node.remove.eq_def]
    simp [Node.emptychildren, Node.compact_of_empty, Node.rebalance_leaf]
  | inner b ivs0 l r mn0 mx0 h0 ihl ihr =>
    rw [Node.testRange_full_inner] at h
    rcases Finset.union_eq_empty.mp h with ⟨h1, hre⟩
    rcases Finset.union_eq_empty.mp h1 with ⟨hiv, hle⟩
    subst hiv
    rw [Node.remove.eq_def]
    have hcol : ∀ l2 r2 : Node α, l2.testRange .nInf .pInf = ∅ →
        r2.testRange .nInf .pInf = ∅ →
        ((Node.inner b ∅ l2 r2 mn0 mx0 h0).compact).rebalance =
          .ok (.leaf ∅ mn0 mx0 0) := by
      intro l2 r2 hl2 hr2
      rw [Node.compact_of_empty (by simp [Node.emptychildren, hl2, hr2])]
      simp [Node.rebalance_leaf]
    by_cases hsb : EV.ble s b <;> by_cases hbe : EV.ble b e
    · simp [hsb, hbe, ihl hle, ihr hre]
      exact hcol _ _ (by simp [Node.testRange]) (by simp [Node.testRange])
    · simp [hsb, hbe, ihl hle]
      exact hcol _ _ (by simp [Node.testRange]) hre
    · simp [hsb, hbe, ihr hre]
      exact hcol _ _ hle (by simp [Node.testRange])
    · simp [hsb, hbe]
      exact hcol _ _ hle hre

/-- C5 (amended): during `remove`, a node whose children both answer the
full-range query with the empty set is collapsed to a leaf over the
node's original `[min, max]` that retains the node's own covering set
(minus the removed name if it was held here). -/
theorem C5_amended_collapse (b : EV α) (ivs0 : Finset ℕ) (l r : Node α)
    (mn0 mx0 : EV α) (h0 : ℤ) (i : ℕ) (s e : EV α)
    (hl : l.testRange .nInf .pInf = ∅) (hr : r.testRange .nInf .pInf = ∅) :
    (Node.inner b ivs0 l r mn0 mx0 h0).remove i s e =
      .ok (.leaf (if i ∈ ivs0 then ivs0.erase i else ivs0) mn0 mx0 0) := by
  have hcol : ∀ (v : Finset ℕ) (l2 r2 : Node α), l2.testRange .nInf .pInf = ∅ →
      r2.testRange .nInf .pInf = ∅ →
      ((Node.inner b v l2 r2 mn0 mx0 h0).compact).rebalance =
        .ok (.leaf v mn0 mx0 0) := by
    intro v l2 r2 hl2 hr2
    rw [Node.compact_of_empty (by simp [Node.emptychildren, hl2, hr2])]
    simp [Node.rebalance_leaf]
  rw [Node.remove.eq_def]
  by_cases hi : i ∈ ivs0
  · simp only [hi, if_true, Node.ivs_inner, Node.setIvs]
    exact hcol (ivs0.erase i) l r hl hr
  · by_cases hsb : EV.ble s b <;> by_cases hbe : EV.ble b e
    · simp [hi, hsb, hbe, remove_of_empty l i s e hl, remove_of_empty r i s e hr]
      exact hcol ivs0 _ _ (by simp [Node.testRange]) (by simp [Node.testRange])
    · simp [hi, hsb, hbe, remove_of_empty l i s e hl]
      exact hcol ivs0 _ _ (by simp [Node.testRange]) hr
    · simp [hi, hsb, hbe, remove_of_empty r i s e hr]
      exact hcol ivs0 _ _ hl (by simp [Node.testRange])
    · simp [hi, hsb, hbe]
      exact hcol ivs0 _ _ hl hr

theorem C5_amended_collapse_witness :
    (Node.inner (.fin 2) {0} (Node.leaf ∅ (.fin 0) (.fin 2) 0)
        (Node.leaf ∅ (.fin 2) (.fin 4) 0) (.fin 0) (.fin 4) 0 : Node ℤ).remove
      7 (.fin 0) (.fin 2) = .ok (.leaf {0} (.fin 0) (.fin 4) 0) := by
  have h := C5_amended_collapse (α := ℤ) (.fin 2) {0}
    (Node.leaf ∅ (.fin 0) (.fin 2) 0) (Node.leaf ∅ (.fin 2) (.fin 4) 0)
    (.fin 0) (.fin 4) 0 7 (.fin 0) (.fin 2) (by decide) (by decide)
  simpa using h

end Collapse

/-! ### Stored-height sanity and the unreachability of `RotationError` (C9) -/

section Heights

variable {α : Type} [LinearOrder α]

@[simp] theorem Node.hok_leaf (i : Finset ℕ) (mn0 mx0 : EV α) (h0 : ℤ) :
    (Node.leaf i mn0 mx0 h0 : Node α).hok = (h0 == 0) := rfl

@[simp] theorem Node.hok_inner (b : EV α) (i : Finset ℕ) (l r : Node α)
    (mn0 mx0 : EV α) (h0 : ℤ) :
    (Node.inner b i l r mn0 mx0 h0).hok = (decide (0 ≤ h0) && l.hok && r.hok) := rfl

@[simp] theorem Node.hok_setIvs (n : Node α) (v : Finset ℕ) :
    (n.setIvs v).hok = n.hok := by
  cases n <;> rfl

@[simp] theorem Node.hgt_setIvs (n : Node α) (v : Finset ℕ) :
    (n.setIvs v).hgt = n.hgt := by
  cases n <;> rfl

@[simp] theorem Node.isleaf_setIvs (n : Node α) (v : Finset ℕ) :
    (n.setIvs v).isleaf = n.isleaf := by
  cases n <;> rfl

@[simp] theorem Node.isleaf_setHgt (n : Node α) (v : ℤ) :
    (n.setHgt v).isleaf = n.isleaf := by
  cases n <;> rfl

/-- A stored height is nonnegative on any height-sane node. -/
theorem Node.hok_hgt_nonneg {n : Node α} (h : n.hok = true) : 0 ≤ n.hgt := by
  cases n with
  | leaf i mn0 mx0 h0 =>
    simp only [Node.hok_leaf, beq_iff_eq] at h
    simp [h]
  | inner b i l r mn0 mx0 h0 =>
    simp only [Node.hok_inner, Bool.and_eq_true, decide_eq_true_eq] at h
    simpa using h.1.1

/-- `_updateheight` of an internal node is nonnegative when the children
are height-sane. -/
theorem Node.updateheight_nonneg_inner {b : EV α} {i : Finset ℕ} {l r : Node α}
    {u v : EV α} {w : ℤ} (hl : l.hok = true) (hr : r.hok = true) :
    0 ≤ (Node.inner b i l r u v w : Node α).updateheight := by
  have h1 : (-1 : ℤ) ≤ (if l.isleaf then (-1 : ℤ) else l.hgt) := by
    by_cases h : l.isleaf = true
    · simp [h]
    · simp only [Bool.not_eq_true] at h
      simp only [h]
      have := Node.hok_hgt_nonneg hl
      simp
      omega
  have h2 := le_max_left (if l.isleaf then (-1 : ℤ) else l.hgt)
    (if r.isleaf then (-1 : ℤ) else r.hgt)
  simp only [Node.updateheight]
  omega

/-- Writing the recomputed `_updateheight` into a node whose children are
height-sane makes the whole node height-sane (the node's own children are
untouched). -/
theorem Node.hok_setHgt_updateheight_inner {b : EV α} {i : Finset ℕ}
    {l r : Node α} {u v : EV α} {w : ℤ}
    (hl : l.hok = true) (hr : r.hok = true) :
    ((Node.inner b i l r u v w : Node α).setHgt
      (Node.inner b i l r u v w : Node α).updateheight).hok = true := by
  simp [Node.setHgt, hl, hr,
    Node.updateheight_nonneg_inner (b := b) (i := i) (u := u) (v := v)
      (w := w) hl hr]

/-- Same statement via the node's own sanity. -/
theorem Node.hok_setHgt_updateheight {n : Node α} (hn : n.hok = true) :
    (n.setHgt n.updateheight).hok = true := by
  cases n with
  | leaf i mn0 mx0 h0 => simp [Node.setHgt, Node.updateheight]
  | inner b i l r mn0 mx0 h0 =>
    simp only [Node.hok_inner, Bool.and_eq_true, decide_eq_true_eq] at hn
    exact Node.hok_setHgt_updateheight_inner hn.1.2 hn.2

/-- A successful right rotation preserves height sanity. -/
theorem Node.rotateright_hok {n m : Node α} (hn : n.hok = true)
    (hm : n.rotateright = .ok m) : m.hok = true := by
  cases n with
  | leaf i mn0 mx0 h0 => simp [Node.rotateright] at hm
  | inner b i l r mn0 mx0 h0 =>
    cases l with
    | leaf li lmn lmx lh => simp [Node.rotateright] at hm
    | inner lb livs ll lr lmn lmx lh =>
      simp only [Node.rotateright, Except.ok.injEq] at hm
      subst hm
      simp only [Node.hok_inner, Bool.and_eq_true, decide_eq_true_eq] at hn
      obtain ⟨⟨hh0, hhl⟩, hhr⟩ := hn
      obtain ⟨⟨hlh, hll⟩, hlr⟩ :
          (0 ≤ lh ∧ ll.hok = true) ∧ lr.hok = true := by
        simpa [Bool.and_eq_true, decide_eq_true_eq, and_assoc] using hhl
      have hdem : ((Node.inner b (((lr.setIvs (lr.ivs ∪ livs)).ivs) ∩ r.ivs)
          ((lr.setIvs (lr.ivs ∪ livs)).setIvs
            ((lr.setIvs (lr.ivs ∪ livs)).ivs \ ((lr.setIvs (lr.ivs ∪ livs)).ivs ∩ r.ivs)))
          (r.setIvs (r.ivs \ ((lr.setIvs (lr.ivs ∪ livs)).ivs ∩ r.ivs)))
          lb mx0 h0 : Node α).setHgt _).hok = true :=
        Node.hok_setHgt_updateheight_inner (by simpa using hlr) (by simpa using hhr)
      exact Node.hok_setHgt_updateheight_inner (by simpa using hll) hdem

/-- A successful left rotation preserves height sanity. -/
theorem Node.rotateleft_hok {n m : Node α} (hn : n.hok = true)
    (hm : n.rotateleft = .ok m) : m.hok = true := by
  cases n with
  | leaf i mn0 mx0 h0 => simp [Node.rotateleft] at hm
  | inner b i l r mn0 mx0 h0 =>
    cases r with
    | leaf ri rmn rmx rh => simp [Node.rotateleft] at hm
    | inner rb rivs rl rr rmn rmx rh =>
      simp only [Node.rotateleft, Except.ok.injEq] at hm
      subst hm
      simp only [Node.hok_inner, Bool.and_eq_true, decide_eq_true_eq] at hn
      obtain ⟨⟨hh0, hhl⟩, hhr⟩ := hn
      obtain ⟨⟨hrh, hrl⟩, hrr⟩ :
          (0 ≤ rh ∧ rl.hok = true) ∧ rr.hok = true := by
        simpa [Bool.and_eq_true, decide_eq_true_eq, and_assoc] using hhr
      have hdem : ((Node.inner b (l.ivs ∩ ((rl.setIvs (rl.ivs ∪ rivs)).ivs))
          (l.setIvs (l.ivs \ (l.ivs ∩ ((rl.setIvs (rl.ivs ∪ rivs)).ivs))))
          ((rl.setIvs (rl.ivs ∪ rivs)).setIvs
            (((rl.setIvs (rl.ivs ∪ rivs)).ivs) \ (l.ivs ∩ ((rl.setIvs (rl.ivs ∪ rivs)).ivs))))
          mn0 rb h0 : Node α).setHgt _).hok = true :=
        Node.hok_setHgt_updateheight_inner (by simpa using hhl) (by simpa using hrl)
      exact Node.hok_setHgt_updateheight_inner hdem (by simpa using hrr)

/-- A right rotation succeeds whenever the left child is internal. -/
theorem Node.rotateright_total {b : EV α} {i : Finset ℕ} {l r : Node α}
    {u v : EV α} {w : ℤ} (hl : l.isleaf = false) :
    ∃ m, (Node.inner b i l r u v w : Node α).rotateright = .ok m := by
  cases l with
  | leaf li lmn lmx lh => simp at hl
  | inner lb livs ll lr lmn lmx lh => exact ⟨_, rfl⟩

/-- A left rotation succeeds whenever the right child is internal. -/
theorem Node.rotateleft_total {b : EV α} {i : Finset ℕ} {l r : Node α}
    {u v : EV α} {w : ℤ} (hr : r.isleaf = false) :
    ∃ m, (Node.inner b i l r u v w : Node α).rotateleft = .ok m := by
  cases r with
  | leaf ri rmn rmx rh => simp at hr
  | inner rb rivs rl rr rmn rmx rh => exact ⟨_, rfl⟩

/-- A successful rotation promotes an internal node. -/
theorem Node.rotateright_shape {n m : Node α} (hm : n.rotateright = .ok m) :
    m.isleaf = false := by
  cases n with
  | leaf i mn0 mx0 h0 => simp [Node.rotateright] at hm
  | inner b i l r mn0 mx0 h0 =>
    cases l with
    | leaf li lmn lmx lh => simp [Node.rotateright] at hm
    | inner lb livs ll lr lmn lmx lh =>
      simp only [Node.rotateright, Except.ok.injEq] at hm
      subst hm
      simp [Node.setHgt]

/-- A successful rotation promotes an internal node. -/
theorem Node.rotateleft_shape {n m : Node α} (hm : n.rotateleft = .ok m) :
    m.isleaf = false := by
  cases n with
  | leaf i mn0 mx0 h0 => simp [Node.rotateleft] at hm
  | inner b i l r mn0 mx0 h0 =>
    cases r with
    | leaf ri rmn rmx rh => simp [Node.rotateleft] at hm
    | inner rb rivs rl rr rmn rmx rh =>
      simp only [Node.rotateleft, Except.ok.injEq] at hm
      subst hm
      simp [Node.setHgt]

/-- On a height-sane node `rebalance` always succeeds (in particular it
never raises the source's `RotationError`: whenever a rotation is
dispatched, the child to promote is internal), and the result is again
height-sane. -/
theorem Node.rebalance_ok {n : Node α} (hn : n.hok = true) :
    ∃ m, n.rebalance = .ok m ∧ m.hok = true := by
  cases n with
  | leaf i mn0 mx0 h0 => exact ⟨_, rfl, hn⟩
  | inner b i l r mn0 mx0 h0 =>
    have hn0 := hn
    simp only [Node.hok_inner, Bool.and_eq_true, decide_eq_true_eq] at hn
    obtain ⟨⟨hh0, hl⟩, hr⟩ := hn
    by_cases h1 : r.hgt - l.hgt < -1
    · -- left-heavy: the left child cannot be a leaf
      have hlnot : l.isleaf = false := by
        cases l with
        | leaf li lmn lmx lh =>
          have : lh = 0 := by simpa using hl
          have := Node.hok_hgt_nonneg hr
          simp only [Node.hgt_leaf] at h1
          omega
        | inner lb2 livs2 ll2 lr2 lmn2 lmx2 lh2 => rfl
      cases l with
      | leaf li lmn lmx lh => simp at hlnot
      | inner lb livs ll lr lmn lmx lh =>
        simp only [Node.hgt_inner] at h1
        by_cases hg : ((Node.inner lb livs ll lr lmn lmx lh : Node α).balanceOf > 0 &&
            !lr.isleaf) = true
        · -- double rotation: first rotate the left child left
          have hlr : lr.isleaf = false := by
            rcases (Bool.and_eq_true _ _).mp hg with ⟨_, h⟩
            simpa using h
          obtain ⟨l2, hl2⟩ := Node.rotateleft_total (b := lb) (i := livs)
            (l := ll) (u := lmn) (v := lmx) (w := lh) hlr
          have hl2ok : l2.hok = true := Node.rotateleft_hok hl hl2
          have hl2shape : l2.isleaf = false := Node.rotateleft_shape hl2
          obtain ⟨m, hm⟩ := Node.rotateright_total (b := b) (i := i) (l := l2)
            (r := r) (u := mn0) (v := mx0) (w := h0) hl2shape
          have hmok : m.hok = true := by
            refine Node.rotateright_hok ?_ hm
            simp [hl2ok, hr, hh0]
          refine ⟨m.setHgt m.updateheight, ?_, Node.hok_setHgt_updateheight hmok⟩
          simp [Node.rebalance, h1, hg, hl2, hm, Except.bind, Except.map]
        · -- single right rotation
          obtain ⟨m, hm⟩ := Node.rotateright_total (b := b) (i := i)
            (l := Node.inner lb livs ll lr lmn lmx lh) (r := r)
            (u := mn0) (v := mx0) (w := h0) rfl
          have hmok : m.hok = true := Node.rotateright_hok hn0 hm
          refine ⟨m.setHgt m.updateheight, ?_, Node.hok_setHgt_updateheight hmok⟩
          simp [Node.rebalance, h1, hg, hm, Except.bind, Except.map]
    · by_cases h2 : r.hgt - l.hgt > 1
      · -- right-heavy: the right child cannot be a leaf
        have hrnot : r.isleaf = false := by
          cases r with
          | leaf ri rmn rmx rh =>
            have : rh = 0 := by simpa using hr
            have := Node.hok_hgt_nonneg hl
            simp only [Node.hgt_leaf] at h2
            omega
          | inner rb2 rivs2 rl2 rr2 rmn2 rmx2 rh2 => rfl
        cases r with
        | leaf ri rmn rmx rh => simp at hrnot
        | inner rb rivs rl rr rmn rmx rh =>
          simp only [Node.hgt_inner] at h1 h2
          by_cases hg : ((Node.inner rb rivs rl rr rmn rmx rh : Node α).balanceOf < 0 &&
              !rl.isleaf) = true
          · have hrl : rl.isleaf = false := by
              rcases (Bool.and_eq_true _ _).mp hg with ⟨_, h⟩
              simpa using h
            obtain ⟨r2, hr2⟩ := Node.rotateright_total (b := rb) (i := rivs)
              (r := rr) (u := rmn) (v := rmx) (w := rh) hrl
            have hr2ok : r2.hok = true := Node.rotateright_hok hr hr2
            have hr2shape : r2.isleaf = false := Node.rotateright_shape hr2
            obtain ⟨m, hm⟩ := Node.rotateleft_total (b := b) (i := i) (l := l)
              (r := r2) (u := mn0) (v := mx0) (w := h0) hr2shape
            have hmok : m.hok = true := by
              refine Node.rotateleft_hok ?_ hm
              simp [hr2ok, hl, hh0]
            refine ⟨m.setHgt m.updateheight, ?_, Node.hok_setHgt_updateheight hmok⟩
            simp [Node.rebalance, h1, h2, hg, hr2, hm, Except.bind, Except.map]
          · obtain ⟨m, hm⟩ := Node.rotateleft_total (b := b) (i := i) (l := l)
              (r := Node.inner rb rivs rl rr rmn rmx rh)
              (u := mn0) (v := mx0) (w := h0) rfl
            have hmok : m.hok = true := Node.rotateleft_hok hn0 hm
            refine ⟨m.setHgt m.updateheight, ?_, Node.hok_setHgt_updateheight hmok⟩
            simp [Node.rebalance, h1, h2, hg, hm, Except.bind, Except.map]
      · exact ⟨_, by simp [Node.rebalance, h1, h2], hn0⟩

@[simp] theorem Node.size_leaf (i : Finset ℕ) (mn0 mx0 : EV α) (h0 : ℤ) :
    (Node.leaf i mn0 mx0 h0 : Node α).size = 1 := rfl

@[simp] theorem Node.size_inner (b : EV α) (i : Finset ℕ) (l r : Node α)
    (mn0 mx0 : EV α) (h0 : ℤ) :
    (Node.inner b i l r mn0 mx0 h0).size = 1 + l.size + r.size := rfl

/-- `settle` on a leaf only zeroes the stored height. -/
theorem Node.settle_leaf (i : Finset ℕ) (mn0 mx0 : EV α) (h0 : ℤ) :
    (Node.leaf i mn0 mx0 h0 : Node α).settle = .ok (.leaf i mn0 mx0 0) := rfl

/-- `settle` on an internal node with height-sane children succeeds and
produces a height-sane node (the stored heights are all recomputed). -/
theorem Node.settle_ok_inner {b : EV α} {i : Finset ℕ} {l r : Node α}
    {u v : EV α} {w : ℤ} (hl : l.hok = true) (hr : r.hok = true) :
    ∃ m, (Node.inner b i l r u v w : Node α).settle = .ok m ∧
      m.hok = true := by
  have hl2 : (l.setHgt l.updateheight).hok = true := Node.hok_setHgt_updateheight hl
  have hr2 : (r.setHgt r.updateheight).hok = true := Node.hok_setHgt_updateheight hr
  have h3 : ((Node.inner b i (l.setHgt l.updateheight) (r.setHgt r.updateheight)
      u v w : Node α).setHgt
      (Node.inner b i (l.setHgt l.updateheight) (r.setHgt r.updateheight)
      u v w : Node α).updateheight).hok = true :=
    Node.hok_setHgt_updateheight_inner hl2 hr2
  obtain ⟨m, hm, hmok⟩ := Node.rebalance_ok h3
  exact ⟨m, by simpa [Node.settle, Node.updateChildHeights] using hm, hmok⟩

/-- The nested `add` call of the leaf-split case, computed: it marks the
fresh `[start, end]` leaf with the new name and never splits again. -/
theorem Node.addF_fresh (f2 : Nat) (s e lmx : EV α) (i : ℕ)
    (hse : EV.blt s e = true) (hex : EV.blt e lmx = true) :
    Node.addF (f2 + 2)
        (Node.inner e ∅ (Node.leaf ∅ s e 0) (Node.leaf ∅ e lmx 0) s lmx 0) s e i =
      .ok (Node.inner e ∅ (Node.leaf {i} s e 0) (Node.leaf ∅ e lmx 0) s lmx 0) := by
  have h1 : EV.ble lmx e = false := by
    have h := hex
    unfold EV.blt at h
    simpa using h
  have h2 : EV.ble e s = false := by
    have h := hse
    unfold EV.blt at h
    simpa using h
  have h3 : EV.blt e e = false := by simp [EV.blt]
  rw [show f2 + 2 = (f2 + 1) + 1 from rfl]
  simp [Node.addF.eq_3, Node.addF.eq_2, h1, h2, h3, hse, Node.setIvs,
    Node.settle, Node.updateChildHeights, Node.setHgt, Node.updateheight,
    Node.rebalance]

/-- On a height-sane node, `add` with sufficient fuel always succeeds (no
fuel exhaustion, no rotation error) and preserves height sanity. -/
theorem Node.addF_ok : ∀ (fuel : Nat) (n : Node α) (s e : EV α) (i : ℕ),
    n.hok = true → EV.blt s e = true → n.size + 6 ≤ fuel →
    ∃ m, Node.addF fuel n s e i = .ok m ∧ m.hok = true := by
  intro fuel
  induction fuel with
  | zero =>
    intro n s e i _ _ hf
    cases n <;> simp at hf
  | succ fuel ih =>
    intro n s e i hn hse hf
    by_cases hcov : (EV.ble s n.mn && EV.ble n.mx e) = true
    · have hcov2 : EV.ble s n.mn = true ∧ EV.ble n.mx e = true := by
        simpa using hcov
      cases n with
      | leaf lvs lmn lmx lht =>
        simp only [Node.mn_leaf, Node.mx_leaf] at hcov2
        refine ⟨.leaf (insert i lvs) lmn lmx 0, ?_, by simp⟩
        simp [Node.addF.eq_2, hcov2.1, hcov2.2, Node.setIvs, Node.settle_leaf]
      | inner b ivs l r mn0 mx0 h0 =>
        simp only [Node.mn_inner, Node.mx_inner] at hcov2
        simp only [Node.hok_inner, Bool.and_eq_true, decide_eq_true_eq] at hn
        obtain ⟨⟨hh0, hl⟩, hr⟩ := hn
        obtain ⟨m, hm, hmok⟩ := Node.settle_ok_inner (b := b)
          (i := insert i ivs) (u := mn0) (v := mx0) (w := h0) hl hr
        refine ⟨m, ?_, hmok⟩
        simp [Node.addF.eq_3, hcov2.1, hcov2.2, Node.setIvs, hm]
    · have hcov2 : ¬(EV.ble s n.mn = true ∧ EV.ble n.mx e = true) := by
        simpa using hcov
      cases n with
      | leaf lvs lmn lmx lht =>
        simp only [Node.mn_leaf, Node.mx_leaf] at hcov2
        have hlht : lht = 0 := by simpa using hn
        subst hlht
        by_cases hs : EV.blt lmn s = true
        · by_cases he : EV.blt e lmx = true
          · obtain ⟨f2, hf2⟩ : ∃ f2, fuel = f2 + 2 := ⟨fuel - 2, by simp at hf; omega⟩
            subst hf2
            have hfr := Node.addF_fresh f2 s e lmx i hse he
            obtain ⟨m, hm, hmok⟩ := Node.settle_ok_inner (b := s) (i := lvs)
              (l := Node.leaf ∅ lmn s 0)
              (r := Node.inner e ∅ (Node.leaf {i} s e 0) (Node.leaf ∅ e lmx 0) s lmx 0)
              (u := lmn) (v := lmx) (w := 0) (by simp) (by simp)
            refine ⟨m, ?_, hmok⟩
            simp [Node.addF.eq_2, hcov2, hs, he, hfr, hm]
          · obtain ⟨m, hm, hmok⟩ := Node.settle_ok_inner (b := s) (i := lvs)
              (l := Node.leaf ∅ lmn s 0) (r := Node.leaf {i} s lmx 0)
              (u := lmn) (v := lmx) (w := 0) (by simp) (by simp)
            refine ⟨m, ?_, hmok⟩
            simp [Node.addF.eq_2, hcov2, hs, he, hm]
        · by_cases he : EV.blt e lmx = true
          · obtain ⟨m, hm, hmok⟩ := Node.settle_ok_inner (b := e) (i := lvs)
              (l := Node.leaf {i} lmn e 0) (r := Node.leaf ∅ e lmx 0)
              (u := lmn) (v := lmx) (w := 0) (by simp) (by simp)
            refine ⟨m, ?_, hmok⟩
            simp [Node.addF.eq_2, hcov2, hs, he, hm]
          · refine ⟨.leaf lvs lmn lmx 0, ?_, by simp⟩
            simp [Node.addF.eq_2, hcov2, hs, he, Node.settle_leaf]
      | inner b ivs l r mn0 mx0 h0 =>
        simp only [Node.mn_inner, Node.mx_inner] at hcov2
        simp only [Node.hok_inner, Bool.and_eq_true, decide_eq_true_eq] at hn
        obtain ⟨⟨hh0, hl⟩, hr⟩ := hn
        have hfl : l.size + 6 ≤ fuel := by simp at hf; omega
        have hfr : r.size + 6 ≤ fuel := by simp at hf; omega
        by_cases hgl : (EV.blt s b = true ∨ EV.ble e b = true)
        · obtain ⟨l2, hl2, hl2ok⟩ := ih l s e i hl hse hfl
          by_cases hgr : (EV.ble b s = true ∨ EV.blt b e = true)
          · obtain ⟨r2, hr2, hr2ok⟩ := ih r s e i hr hse hfr
            obtain ⟨m, hm, hmok⟩ := Node.settle_ok_inner (b := b) (i := ivs)
              (u := mn0) (v := mx0) (w := h0) hl2ok hr2ok
            refine ⟨m, ?_, hmok⟩
            simp [Node.addF.eq_3, hcov2, hgl, hgr, hl2, hr2, hm]
          · obtain ⟨m, hm, hmok⟩ := Node.settle_ok_inner (b := b) (i := ivs)
              (u := mn0) (v := mx0) (w := h0) hl2ok hr
            refine ⟨m, ?_, hmok⟩
            simp [Node.addF.eq_3, hcov2, hgl, hgr, hl2, hm]
        · by_cases hgr : (EV.ble b s = true ∨ EV.blt b e = true)
          · obtain ⟨r2, hr2, hr2ok⟩ := ih r s e i hr hse hfr
            obtain ⟨m, hm, hmok⟩ := Node.settle_ok_inner (b := b) (i := ivs)
              (u := mn0) (v := mx0) (w := h0) hl hr2ok
            refine ⟨m, ?_, hmok⟩
            simp [Node.addF.eq_3, hcov2, hgl, hgr, hr2, hm]
          · obtain ⟨m, hm, hmok⟩ := Node.settle_ok_inner (b := b) (i := ivs)
              (u := mn0) (v := mx0) (w := h0) hl hr
            refine ⟨m, ?_, hmok⟩
            simp [Node.addF.eq_3, hcov2, hgl, hgr, hm]

/-- The compaction step preserves height sanity. -/
theorem Node.compact_hok {n : Node α} (hn : n.hok = true) :
    (n.compact).hok = true := by
  unfold Node.compact
  by_cases h1 : n.emptychildren = true
  · simp [h1]
  · simp only [h1, if_false, Bool.false_eq_true]
    by_cases h2 : n.canreplacewithleft = true
    · simp only [h2, if_true]
      cases n with
      | leaf i mn0 mx0 h0 => exact hn
      | inner b i l r mn0 mx0 h0 =>
        cases l with
        | leaf li lmn lmx lh => exact hn
        | inner lb livs ll lr lmn lmx lh =>
          simp only [Node.hok_inner, Bool.and_eq_true, decide_eq_true_eq] at hn
          obtain ⟨⟨hh0, hhl⟩, hhr⟩ := hn
          obtain ⟨⟨hlh, hll⟩, hlr⟩ :
              (0 ≤ lh ∧ ll.hok = true) ∧ lr.hok = true := by
            simpa [Bool.and_eq_true, decide_eq_true_eq, and_assoc] using hhl
          simp [hll, hlr]
    · simp only [h2, if_false, Bool.false_eq_true]
      by_cases h3 : n.canreplacewithright = true
      · simp only [h3, if_true]
        cases n with
        | leaf i mn0 mx0 h0 => exact hn
        | inner b i l r mn0 mx0 h0 =>
          cases r with
          | leaf ri rmn rmx rh => exact hn
          | inner rb rivs rl rr rmn rmx rh =>
            simp only [Node.hok_inner, Bool.and_eq_true, decide_eq_true_eq] at hn
            obtain ⟨⟨hh0, hhl⟩, hhr⟩ := hn
            obtain ⟨⟨hrh, hrl⟩, hrr⟩ :
                (0 ≤ rh ∧ rl.hok = true) ∧ rr.hok = true := by
              simpa [Bool.and_eq_true, decide_eq_true_eq, and_assoc] using hhr
            simp [hrl, hrr]
      · simpa [h3] using hn

/-- On a height-sane node, `remove` always succeeds (no rotation error)
and preserves height sanity. -/
theorem Node.remove_ok (n : Node α) (i : ℕ) (s e : EV α) (hn : n.hok = true) :
    ∃ m, n.remove i s e = .ok m ∧ m.hok = true := by
  induction n with
  | leaf lvs lmn lmx lh =>
    rw [Node.remove.eq_def]
    by_cases hi : i ∈ lvs
    · obtain ⟨m, hm, hmok⟩ := Node.rebalance_ok
        (Node.compact_hok (n := (Node.leaf lvs lmn lmx lh : Node α).setIvs
          (lvs.erase i)) (by simpa using hn))
      refine ⟨m, ?_, hmok⟩
      simpa [hi] using hm
    · obtain ⟨m, hm, hmok⟩ := Node.rebalance_ok (Node.compact_hok hn)
      refine ⟨m, ?_, hmok⟩
      simpa [hi] using hm
  | inner b ivs l r mn0 mx0 h0 ihl ihr =>
    have hn1 := hn
    simp only [Node.hok_inner, Bool.and_eq_true, decide_eq_true_eq] at hn1
    obtain ⟨⟨hh0, hl⟩, hr⟩ := hn1
    rw [Node.remove.eq_def]
    by_cases hi : i ∈ ivs
    · obtain ⟨m, hm, hmok⟩ := Node.rebalance_ok
        (Node.compact_hok (n := (Node.inner b ivs l r mn0 mx0 h0 : Node α).setIvs
          (ivs.erase i)) (by simpa using hn))
      refine ⟨m, ?_, hmok⟩
      simpa [hi] using hm
    · by_cases hgl : EV.ble s b = true
      · obtain ⟨l2, hl2, hl2ok⟩ := ihl hl
        by_cases hgr : EV.ble b e = true
        · obtain ⟨r2, hr2, hr2ok⟩ := ihr hr
          obtain ⟨m, hm, hmok⟩ := Node.rebalance_ok
            (Node.compact_hok (n := Node.inner b ivs l2 r2 mn0 mx0 h0)
              (by simp [hh0, hl2ok, hr2ok]))
          refine ⟨m, ?_, hmok⟩
          simp [hi, hgl, hgr, hl2, hr2, hm]
        · obtain ⟨m, hm, hmok⟩ := Node.rebalance_ok
            (Node.compact_hok (n := Node.inner b ivs l2 r mn0 mx0 h0)
              (by simp [hh0, hl2ok, hr]))
          refine ⟨m, ?_, hmok⟩
          simp [hi, hgl, hgr, hl2, hm]
      · by_cases hgr : EV.ble b e = true
        · obtain ⟨r2, hr2, hr2ok⟩ := ihr hr
          obtain ⟨m, hm, hmok⟩ := Node.rebalance_ok
            (Node.compact_hok (n := Node.inner b ivs l r2 mn0 mx0 h0)
              (by simp [hh0, hl, hr2ok]))
          refine ⟨m, ?_, hmok⟩
          simp [hi, hgl, hgr, hr2, hm]
        · obtain ⟨m, hm, hmok⟩ := Node.rebalance_ok
            (Node.compact_hok (n := Node.inner b ivs l r mn0 mx0 h0) hn)
          refine ⟨m, ?_, hmok⟩
          simp [hi, hgl, hgr, hm]

/-- Every reachable facade state has a height-sane root. -/
theorem reach_hok {t : Tree α} (h : Reachable t) : t.root.hok = true := by
  induction h with
  | init => simp [Tree.init]
  | addStep hstep heq ih =>
    rename_i t0 t1 s e i
    unfold Tree.add at heq
    by_cases h1 : EV.blt s e
    · by_cases h2 : (Tree.lookupD t0.dict i).isSome
      · simp [h1, h2] at heq
      · obtain ⟨m, hm, hmok⟩ := Node.addF_ok (t0.root.size + 6) t0.root s e i
          ih h1 (le_refl _)
        simp [h1, h2, hm] at heq
        subst heq
        exact hmok
    · simp [h1] at heq
  | removeStep hstep heq ih =>
    rename_i t0 t1 i
    unfold Tree.remove at heq
    cases hl : Tree.lookupD t0.dict i with
    | none => simp [hl] at heq
    | some se =>
      obtain ⟨m, hm, hmok⟩ := Node.remove_ok t0.root i se.1 se.2 ih
      simp [hl, hm] at heq
      subst heq
      exact hmok
  | clearStep hstep ih =>
    simp [Tree.clear]

/-- C9: from any reachable facade state, no public `add` or `remove` call
can raise the source's `RotationError`: whenever `rebalance` dispatches a
rotation, the child being promoted is an internal node, so the guard
`if self.left._isleaf: raise RotationError` never fires. -/
theorem C9_no_rotation_error {t : Tree α} (h : Reachable t) :
    (∀ s e i, t.add s e i ≠ .error (.node .rot)) ∧
    (∀ i, t.remove i ≠ .error (.node .rot)) := by
  have hok := reach_hok h
  constructor
  · intro s e i
    unfold Tree.add
    by_cases h1 : EV.blt s e
    · by_cases h2 : (Tree.lookupD t.dict i).isSome
      · simp [h1, h2]
      · obtain ⟨m, hm, _⟩ := Node.addF_ok (t.root.size + 6) t.root s e i
          hok h1 (le_refl _)
        simp [h1, h2, hm]
    · simp [h1]
  · intro i
    unfold Tree.remove
    cases hl : Tree.lookupD t.dict i with
    | none => simp
    | some se =>
      obtain ⟨m, hm, _⟩ := Node.remove_ok t.root i se.1 se.2 hok
      simp [hm]

theorem C9_no_rotation_error_witness :
    (Tree.init (α := ℤ)).add (.fin 0) (.fin 1) 0 ≠ .error (.node .rot) :=
  (C9_no_rotation_error Reachable.init).1 (.fin 0) (.fin 1) 0

end Heights

end ITree
